import Mathlib

/-!
Verification development for the Objective-C type-encoding model of the
`objc2` repository (module `src/encoding/mod.rs` and the concrete
encoding representations it re-exports).

The in-tree file `src/encoding/mod.rs` declares the `Encoding`,
`StructEncoding` and `PointerEncoding` traits, the `Descriptor` exchange
view and `Descriptor::eq_encoding`; the concrete implementations
(`primitive.rs`, `pointer.rs`, `structure.rs`, the string parser and the
field comparator) are not part of the tree, so those definitions are
modelled from the specification, as their doc comments record.

Machine words play no role here: the model uses `Char`, `String`,
`List` and a fuel-indexed scanner over character lists.
-/

set_option maxRecDepth 4000

/-- Modelled from the spec: the primitive catalog of `primitive.rs` (absent
from the tree).  The spec enumerates the scalar Objective-C type codes
Char, Int, Long, LongLong, Float, Double, Bool, Void, Class, Selector and
Object, each with its single-character encoding symbol. -/
inductive Primitive where
  | char
  | int
  | long
  | longlong
  | float
  | double
  | bool
  | void
  | cls
  | sel
  | object
deriving DecidableEq

/-- Modelled from the spec: the canonical single-character code of each
primitive (the display form of the primitive catalog). -/
def Primitive.code : Primitive → Char
  | .char => 'c'
  | .int => 'i'
  | .long => 'l'
  | .longlong => 'q'
  | .float => 'f'
  | .double => 'd'
  | .bool => 'B'
  | .void => 'v'
  | .cls => '#'
  | .sel => ':'
  | .object => '@'

/-- Modelled from the spec: recognising a primitive code character during a
string scan (the inverse of the code table). -/
def primFromChar : Char → Option Primitive
  | 'c' => some .char
  | 'i' => some .int
  | 'l' => some .long
  | 'q' => some .longlong
  | 'f' => some .float
  | 'd' => some .double
  | 'B' => some .bool
  | 'v' => some .void
  | '#' => some .cls
  | ':' => some .sel
  | '@' => some .object
  | _ => none

mutual
/-- Modelled from the spec: the semantic type space of the encoding model —
a primitive, a pointer wrapping a pointee encoding, or a struct carrying a
name and an ordered field sequence.  The static representation of
`pointer.rs` / `structure.rs` (absent from the tree) maps onto this
directly. -/
inductive Encoding where
  | prim (p : Primitive)
  | pointer (pointee : Encoding)
  | struct_ (name : String) (fields : EncList)

/-- Ordered sequence of field encodings of a struct encoding. -/
inductive EncList where
  | nil
  | cons (e : Encoding) (es : EncList)
end

/-- Length of a field sequence. -/
def EncList.length : EncList → Nat
  | .nil => 0
  | .cons _ es => es.length + 1

/-- Indexing into a field sequence. -/
def EncList.get? : EncList → Nat → Option Encoding
  | .nil, _ => none
  | .cons e _, 0 => some e
  | .cons _ es, n + 1 => es.get? n

mutual
/-- Modelled from the spec: structural equivalence on the semantic type
space — identical primitive variant, pointee equivalence for pointers, and
equal name plus lock-step pairwise-equal fields for structs; any mixed pair
of tags is unequal. -/
def Encoding.eq_encoding : Encoding → Encoding → Bool
  | .prim p, .prim q => decide (p = q)
  | .pointer a, .pointer b => a.eq_encoding b
  | .struct_ n fs, .struct_ m gs => decide (n = m) && EncList.eqFields fs gs
  | _, _ => false

/-- Modelled from the spec: the field comparator of the `multi` module
(absent from the tree) — walk both field sequences in lock-step,
short-circuiting on the first mismatch; unequal lengths are unequal. -/
def EncList.eqFields : EncList → EncList → Bool
  | .nil, .nil => true
  | .cons a as, .cons b bs => a.eq_encoding b && EncList.eqFields as bs
  | _, _ => false
end

mutual
/-- Modelled from the spec: the canonical character rendering of an
encoding — the primitive code, a caret before the pointee, and
an open brace, name, equals sign, concatenated fields and close brace for
a struct. -/
def Encoding.displayChars : Encoding → List Char
  | .prim p => [p.code]
  | .pointer e => '^' :: e.displayChars
  | .struct_ n fs => '{' :: (n.data ++ '=' :: (fs.displayChars ++ ['}']))

/-- Concatenated renderings of a field sequence. -/
def EncList.displayChars : EncList → List Char
  | .nil => []
  | .cons e es => e.displayChars ++ es.displayChars
end

/-- Display form of an encoding, as the `Display` implementations render
it (`src/encoding/mod.rs` requires `Encoding: fmt::Display`). -/
def Encoding.display (e : Encoding) : String :=
  ⟨e.displayChars⟩

/-- Display form of a field sequence: the concatenation of the field
displays. -/
def EncList.display (fs : EncList) : String :=
  ⟨fs.displayChars⟩

mutual
/-- Well-formedness of a semantic encoding for the textual grammar: every
struct name is free of the equals sign that terminates the name during a
scan.  Every encoding a scan can produce satisfies this. -/
def WFEnc : Encoding → Bool
  | .prim _ => true
  | .pointer e => WFEnc e
  | .struct_ n fs => n.data.all (fun c => decide (c ≠ '=')) && WFList fs

/-- Well-formedness of a field sequence. -/
def WFList : EncList → Bool
  | .nil => true
  | .cons e es => WFEnc e && WFList es
end

mutual
/-- Modelled from the spec: the lazy scanner of the string-parsed
representation (module `parse`, absent from the tree).  Reads one lexical
unit from the front of the character list: a primitive code resolves to a
primitive; a caret consumes itself and scans the remainder as the pointee;
an open brace takes the name up to the equals sign and then scans fields
up to the close brace.  Anything else, or a premature end of input, is
malformed.  The fuel argument only forces termination; enough fuel is
always supplied at the top level. -/
def parseEncF : Nat → List Char → Option (Encoding × List Char)
  | 0, _ => none
  | _ + 1, [] => none
  | fuel + 1, c :: rest =>
    if c = '^' then
      match parseEncF fuel rest with
      | some (e, r) => some (.pointer e, r)
      | none => none
    else if c = '{' then
      match rest.dropWhile (fun x => decide (x ≠ '=')) with
      | _ :: rest2 =>
        match parseFieldsF fuel rest2 with
        | some (fs, r) => some (.struct_ ⟨rest.takeWhile (fun x => decide (x ≠ '='))⟩ fs, r)
        | none => none
      | [] => none
    else
      match primFromChar c with
      | some p => some (.prim p, rest)
      | none => none

/-- Modelled from the spec: scanning struct fields repeatedly until the
closing brace. -/
def parseFieldsF : Nat → List Char → Option (EncList × List Char)
  | 0, _ => none
  | _ + 1, [] => none
  | fuel + 1, c :: rest =>
    if c = '}' then some (.nil, rest)
    else
      match parseEncF fuel (c :: rest) with
      | some (e, r) =>
        match parseFieldsF fuel r with
        | some (fs, r2) => some (.cons e fs, r2)
        | none => none
      | none => none
end

/-- Modelled from the spec: reducing a whole string to exactly one
well-formed top-level encoding; trailing characters make the reduction
fail.  The fuel `2 * length + 2` always suffices (proved below). -/
def parseFull (s : String) : Option Encoding :=
  match parseEncF (2 * s.data.length + 2) s.data with
  | some (e, []) => some e
  | _ => none

/-- Modelled from the spec: the string-parsed representation — it owns the
source string and re-scans it on demand; nothing is cached. -/
structure StrEncoding where
  buf : String

/-- Modelled from the spec: the validating constructor of the
string-parsed representation; fails with a malformed-encoding error
(modelled as `none`) when the string does not reduce to exactly one
well-formed encoding. -/
def StrEncoding.new (s : String) : Option StrEncoding :=
  match parseFull s with
  | some _ => some ⟨s⟩
  | none => none

/-- Modelled from the spec: the unchecked constructor — no validation, the
caller attests validity. -/
def StrEncoding.new_unchecked (s : String) : StrEncoding :=
  ⟨s⟩

/-- An encoding of either concrete representation: static (built from
native type descriptors) or string-parsed. -/
inductive AnyEncoding where
  | static (e : Encoding)
  | parsed (s : StrEncoding)

/-- Denotation of a representation in the semantic type space: a static
encoding denotes itself, a string-parsed encoding denotes the reduction of
its string (none when the string is malformed). -/
def AnyEncoding.den : AnyEncoding → Option Encoding
  | .static e => some e
  | .parsed s => parseFull s.buf

/-- The `Descriptor` exchange view of `src/encoding/mod.rs`: a tagged
union of a primitive value, a pointer encoding (exposing its pointee) or
a struct encoding (exposing name and fields).  The Rust view borrows the
encoding; the model carries the semantic value. -/
inductive Descriptor where
  | primitive (p : Primitive)
  | pointer (pointee : Encoding)
  | struct_ (name : String) (fields : EncList)

/-- The `descriptor()` method of the static representations: each
constructor exposes its own tag. -/
def Encoding.descriptor : Encoding → Descriptor
  | .prim p => .primitive p
  | .pointer e => .pointer e
  | .struct_ n fs => .struct_ n fs

/-- The `descriptor()` view of either representation; for the
string-parsed representation the view exists only when the string scans
(the spec leaves the view unspecified for attested-invalid strings). -/
def AnyEncoding.descriptor (a : AnyEncoding) : Option Descriptor :=
  (a.den).map Encoding.descriptor

/-- Modelled from the spec: `Primitive::eq_encoding` — true iff the
other's descriptor is `Primitive` with the identical variant. -/
def Primitive.eq_encoding (p : Primitive) (other : AnyEncoding) : Bool :=
  match other.descriptor with
  | some (.primitive q) => decide (p = q)
  | _ => false

/-- Modelled from the spec: `Pointer::eq_encoding` of a pointer with the
given pointee — true iff the other's descriptor is `Pointer` and the
pointees are equivalent. -/
def pointerEqA (pointee : Encoding) (other : AnyEncoding) : Bool :=
  match other.descriptor with
  | some (.pointer b) => pointee.eq_encoding b
  | _ => false

/-- Modelled from the spec: `Struct::eq_encoding` of a struct with the
given name and fields — true iff the other's descriptor is `Struct` with
an equal name and lock-step equivalent fields. -/
def structEqA (name : String) (fields : EncList) (other : AnyEncoding) : Bool :=
  match other.descriptor with
  | some (.struct_ m gs) => decide (name = m) && EncList.eqFields fields gs
  | _ => false

/-- The `eq_encoding` of a static encoding against an arbitrary other
representation: each concrete implementation dispatches on the other's
descriptor. -/
def Encoding.eqA : Encoding → AnyEncoding → Bool
  | .prim p, other => p.eq_encoding other
  | .pointer a, other => pointerEqA a other
  | .struct_ n fs, other => structEqA n fs other

/-- Modelled from the spec: `StrEncoding::eq_encoding` — re-scan the
owned string and compare what it denotes; an attested-invalid string
compares as unequal in the model (the spec leaves the result
unspecified). -/
def StrEncoding.eqA (s : StrEncoding) (other : AnyEncoding) : Bool :=
  match parseFull s.buf with
  | some e => e.eqA other
  | none => false

/-- The `eq_encoding` entry point between any two representations. -/
def AnyEncoding.eq_encoding : AnyEncoding → AnyEncoding → Bool
  | .static e, other => e.eqA other
  | .parsed s, other => s.eqA other

/-- The `Descriptor::eq_encoding` dispatch of `src/encoding/mod.rs`
(lines 46–52): match on the tag and delegate to the wrapped primitive's,
pointer encoding's, or struct encoding's own `eq_encoding`. -/
def Descriptor.eq_encoding (d : Descriptor) (other : AnyEncoding) : Bool :=
  match d with
  | .primitive p => p.eq_encoding other
  | .pointer a => pointerEqA a other
  | .struct_ n fs => structEqA n fs other

/-- Mutual structural induction over the semantic type space and its field
sequences. -/
theorem encMutualInd (P : Encoding → Prop) (Q : EncList → Prop)
    (h1 : ∀ p, P (.prim p))
    (h2 : ∀ e, P e → P (.pointer e))
    (h3 : ∀ n fs, Q fs → P (.struct_ n fs))
    (h4 : Q .nil)
    (h5 : ∀ e es, P e → Q es → Q (.cons e es)) :
    (∀ e, P e) ∧ (∀ fs, Q fs) :=
  ⟨fun e => @Encoding.rec P Q h1 h2 h3 h4 h5 e,
   fun fs => @EncList.rec P Q h1 h2 h3 h4 h5 fs⟩

/-- The primitive code characters are distinct from the three structural
delimiters of the grammar. -/
theorem code_ne_delims (p : Primitive) :
    p.code ≠ '^' ∧ p.code ≠ '{' ∧ p.code ≠ '}' := by
  cases p <;> exact ⟨by decide, by decide, by decide⟩

/-- Scanning the code of a primitive recovers that primitive. -/
theorem primFromChar_code (p : Primitive) : primFromChar p.code = some p := by
  cases p <;> rfl

/-- A character recognised as a primitive code is that primitive's code. -/
theorem primFromChar_sound (c : Char) (p : Primitive)
    (h : primFromChar c = some p) : c = p.code := by
  unfold primFromChar at h
  split at h
  all_goals first
  | (cases h; rfl)
  | simp_all

/-- Taking while a predicate holds on a satisfying block stops exactly at
the first failing element. -/
theorem takeWhile_block (p : Char → Bool) (l t : List Char) (a : Char)
    (hl : ∀ c ∈ l, p c = true) (ha : p a = false) :
    (l ++ a :: t).takeWhile p = l := by
  induction l with
  | nil => simp [List.takeWhile, ha]
  | cons x xs ih =>
      have hx : p x = true := hl x (by simp)
      simp only [List.cons_append, List.takeWhile, hx]
      have : ∀ c ∈ xs, p c = true := fun c hc => hl c (by simp [hc])
      simp [ih this]

/-- Dropping while a predicate holds on a satisfying block stops exactly at
the first failing element. -/
theorem dropWhile_block (p : Char → Bool) (l t : List Char) (a : Char)
    (hl : ∀ c ∈ l, p c = true) (ha : p a = false) :
    (l ++ a :: t).dropWhile p = a :: t := by
  induction l with
  | nil => simp [List.dropWhile, ha]
  | cons x xs ih =>
      have hx : p x = true := hl x (by simp)
      simp only [List.cons_append, List.dropWhile, hx]
      have : ∀ c ∈ xs, p c = true := fun c hc => hl c (by simp [hc])
      simp [ih this]

/-- The head of a nonempty `dropWhile` result fails the predicate. -/
theorem dropWhile_head_false (p : Char → Bool) :
    ∀ (l : List Char) (a : Char) (t : List Char),
      l.dropWhile p = a :: t → p a = false := by
  intro l
  induction l with
  | nil => intro a t h; simp [List.dropWhile] at h
  | cons x xs ih =>
      intro a t h
      by_cases hx : p x = true
      · simp only [List.dropWhile, hx] at h
        exact ih a t h
      · simp only [List.dropWhile, Bool.not_eq_true] at hx
        simp only [List.dropWhile, hx] at h
        cases h
        exact hx

/-- Structural equivalence on the semantic type space coincides with
equality, and the field comparator coincides with equality of field
sequences. -/
theorem eq_encoding_iff_all :
    (∀ a b : Encoding, (a.eq_encoding b = true) ↔ a = b) ∧
    (∀ as bs : EncList, (EncList.eqFields as bs = true) ↔ as = bs) := by
  refine encMutualInd (fun a => ∀ b, (a.eq_encoding b = true) ↔ a = b)
    (fun as => ∀ bs, (EncList.eqFields as bs = true) ↔ as = bs) ?_ ?_ ?_ ?_ ?_
  · intro p b
    cases b <;> simp [Encoding.eq_encoding]
  · intro e ih b
    cases b <;> simp [Encoding.eq_encoding, ih]
  · intro n fs ih b
    cases b <;> simp [Encoding.eq_encoding, ih]
  · intro bs
    cases bs <;> simp [EncList.eqFields]
  · intro e es ihe ihes bs
    cases bs <;> simp [EncList.eqFields, ihe, ihes]

/-- The rendering of any encoding is nonempty and never starts with the
closing brace. -/
theorem displayChars_head (e : Encoding) :
    ∃ c t, e.displayChars = c :: t ∧ c ≠ '}' := by
  cases e with
  | prim p =>
      exact ⟨p.code, [], rfl, (code_ne_delims p).2.2⟩
  | pointer e1 =>
      exact ⟨'^', e1.displayChars, rfl, by decide⟩
  | struct_ n fs =>
      exact ⟨'{', n.data ++ '=' :: (fs.displayChars ++ ['}']), rfl, by decide⟩

/-- Soundness of the scanner, at every fuel: whatever it returns is a
well-formed encoding, and the input is exactly that encoding's canonical
rendering followed by the returned remainder.  In particular the scan
consumed only a prefix of the input. -/
theorem parse_sound_all : ∀ n : Nat,
    (∀ cs e rest, parseEncF n cs = some (e, rest) →
      WFEnc e = true ∧ cs = e.displayChars ++ rest) ∧
    (∀ cs fs rest, parseFieldsF n cs = some (fs, rest) →
      WFList fs = true ∧ cs = fs.displayChars ++ '}' :: rest) := by
  intro n
  induction n with
  | zero =>
      constructor
      · intro cs e rest h
        simp [parseEncF] at h
      · intro cs fs rest h
        simp [parseFieldsF] at h
  | succ m ih =>
      constructor
      · intro cs e rest h
        cases cs with
        | nil => simp [parseEncF] at h
        | cons c cs2 =>
            simp only [parseEncF] at h
            by_cases hc : c = '^'
            · rw [if_pos hc] at h
              split at h
              next e1 r heq =>
                cases h
                obtain ⟨hwf, hcs⟩ := ih.1 cs2 e1 rest heq
                subst hcs
                simp [WFEnc, hwf, Encoding.displayChars, hc]
              next => cases h
            · rw [if_neg hc] at h
              by_cases hb : c = '{'
              · rw [if_pos hb] at h
                split at h
                next x rest2 hdrop =>
                  split at h
                  next fs1 r heqf =>
                    cases h
                    obtain ⟨hwf, hr2⟩ := ih.2 rest2 fs1 rest heqf
                    have hx : x = '=' := by
                      have h3 := dropWhile_head_false
                        (fun y => decide (y ≠ '=')) cs2 x rest2 hdrop
                      simpa using h3
                    have hsplit : cs2 =
                        cs2.takeWhile (fun y => decide (y ≠ '=')) ++
                          x :: rest2 := by
                      conv_lhs => rw [← List.takeWhile_append_dropWhile
                        (fun y => decide (y ≠ '=')) cs2]
                      rw [hdrop]
                    refine ⟨?_, ?_⟩
                    · simp only [WFEnc, Bool.and_eq_true]
                      refine ⟨?_, hwf⟩
                      simp only [List.all_eq_true]
                      intro ch hch
                      have h4 := List.mem_takeWhile_imp hch
                      exact h4
                    · subst hb hx
                      conv_lhs => rw [hsplit, hr2]
                      simp [Encoding.displayChars]
                  next => cases h
                next => cases h
              · rw [if_neg hb] at h
                split at h
                next p heqp =>
                  cases h
                  have hcp : c = p.code := primFromChar_sound c p heqp
                  subst hcp
                  simp [WFEnc, Encoding.displayChars]
                next => cases h
      · intro cs fs rest h
        cases cs with
        | nil => simp [parseFieldsF] at h
        | cons c cs2 =>
            simp only [parseFieldsF] at h
            by_cases hc : c = '}'
            · rw [if_pos hc] at h
              cases h
              subst hc
              simp [WFList, EncList.displayChars]
            · rw [if_neg hc] at h
              split at h
              next e1 r heq =>
                split at h
                next fs1 r2 heqf =>
                  cases h
                  obtain ⟨hwf1, hcs1⟩ := ih.1 (c :: cs2) e1 r heq
                  obtain ⟨hwf2, hcs2⟩ := ih.2 r fs1 rest heqf
                  refine ⟨by simp [WFList, hwf1, hwf2], ?_⟩
                  rw [hcs1, hcs2]
                  simp [EncList.displayChars]
                next => cases h
              next => cases h

/-- Completeness of the scanner: the canonical rendering of a well-formed
encoding, followed by any remainder, scans back to exactly that encoding
with that remainder, whenever the fuel is at least twice the rendering's
length plus one. -/
theorem parse_complete_all :
    (∀ e : Encoding, WFEnc e = true → ∀ (rest : List Char) (n : Nat),
      2 * e.displayChars.length + 1 ≤ n →
      parseEncF n (e.displayChars ++ rest) = some (e, rest)) ∧
    (∀ fs : EncList, WFList fs = true → ∀ (rest : List Char) (n : Nat),
      2 * fs.displayChars.length + 2 ≤ n →
      parseFieldsF n (fs.displayChars ++ '}' :: rest) = some (fs, rest)) := by
  refine encMutualInd
    (fun e => WFEnc e = true → ∀ (rest : List Char) (n : Nat),
      2 * e.displayChars.length + 1 ≤ n →
      parseEncF n (e.displayChars ++ rest) = some (e, rest))
    (fun fs => WFList fs = true → ∀ (rest : List Char) (n : Nat),
      2 * fs.displayChars.length + 2 ≤ n →
      parseFieldsF n (fs.displayChars ++ '}' :: rest) = some (fs, rest))
    ?_ ?_ ?_ ?_ ?_
  · intro p _ rest n hn
    cases n with
    | zero => omega
    | succ m =>
        simp [Encoding.displayChars, parseEncF, (code_ne_delims p).1,
          (code_ne_delims p).2.1, primFromChar_code]
  · intro e ih hwf rest n hn
    have hwf1 : WFEnc e = true := by simpa [WFEnc] using hwf
    simp only [Encoding.displayChars, List.length_cons] at hn
    cases n with
    | zero => omega
    | succ m =>
        have hrec := ih hwf1 rest m (by omega)
        simp [Encoding.displayChars, parseEncF, hrec]
  · intro nm fs ih hwf rest n hn
    obtain ⟨nd⟩ := nm
    have hparts : nd.all (fun c => decide (c ≠ '=')) = true ∧
        WFList fs = true := by
      simpa [WFEnc, Bool.and_eq_true] using hwf
    simp only [Encoding.displayChars, List.length_cons, List.length_append]
      at hn
    cases n with
    | zero => omega
    | succ m =>
        have hmem : ∀ c ∈ nd, (fun x => decide (x ≠ '=')) c = true := by
          intro c hc
          exact (List.all_eq_true.mp hparts.1) c hc
        have hstop : (fun x => decide (x ≠ '=')) '=' = false := by decide
        have htake := takeWhile_block (fun x => decide (x ≠ '=')) nd
          (fs.displayChars ++ '}' :: rest) '=' hmem hstop
        have hdrop := dropWhile_block (fun x => decide (x ≠ '=')) nd
          (fs.displayChars ++ '}' :: rest) '=' hmem hstop
        have hrec := ih hparts.2 rest m (by omega)
        have hinput : (Encoding.struct_ ⟨nd⟩ fs).displayChars ++ rest =
            '{' :: (nd ++ '=' :: (fs.displayChars ++ '}' :: rest)) := by
          simp [Encoding.displayChars]
        rw [hinput]
        simp only [decide_not] at htake hdrop
        simp [parseEncF, hdrop, htake, hrec]
  · intro _ rest n hn
    cases n with
    | zero => omega
    | succ m =>
        simp [EncList.displayChars, parseFieldsF]
  · intro e es ihP ihQ hwf rest n hn
    have hparts : WFEnc e = true ∧ WFList es = true := by
      simpa [WFList, Bool.and_eq_true] using hwf
    obtain ⟨c, t, hdc, hcne⟩ := displayChars_head e
    have hlen : e.displayChars.length = t.length + 1 := by
      rw [hdc]; rfl
    simp only [EncList.displayChars, List.length_append] at hn
    cases n with
    | zero => omega
    | succ m =>
        have hrecE := ihP hparts.1 (es.displayChars ++ '}' :: rest) m
          (by omega)
        have hrecQ := ihQ hparts.2 rest m (by omega)
        rw [hdc] at hrecE
        have hinput : (EncList.cons e es).displayChars ++ '}' :: rest =
            c :: (t ++ (es.displayChars ++ '}' :: rest)) := by
          simp [EncList.displayChars, hdc]
        rw [hinput]
        rw [List.cons_append] at hrecE
        simp [parseFieldsF, hcne, hrecE, hrecQ]


/-- Dispatch characterization: a static encoding's `eq_encoding` against an
arbitrary representation compares the semantic values the two sides
denote, and is false when the other side denotes nothing. -/
theorem eqA_den (x : Encoding) (other : AnyEncoding) :
    x.eqA other = match other.den with
      | some y => x.eq_encoding y
      | none => false := by
  cases hd : other.den with
  | none =>
      cases x <;>
        simp [Encoding.eqA, Primitive.eq_encoding, pointerEqA, structEqA,
          AnyEncoding.descriptor, hd]
  | some y =>
      cases x <;> cases y <;>
        simp [Encoding.eqA, Primitive.eq_encoding, pointerEqA, structEqA,
          AnyEncoding.descriptor, Encoding.descriptor, Encoding.eq_encoding,
          hd]

/-- Cross-representation characterization: `eq_encoding` between any two
representations compares the denoted semantic values, and is false when
either side denotes nothing. -/
theorem eq_encoding_den (a b : AnyEncoding) :
    a.eq_encoding b = match a.den, b.den with
      | some x, some y => x.eq_encoding y
      | _, _ => false := by
  cases a with
  | static e =>
      rw [show AnyEncoding.eq_encoding (.static e) b = e.eqA b from rfl,
        eqA_den]
      cases hb : b.den <;> rfl
  | parsed s =>
      rw [show AnyEncoding.eq_encoding (.parsed s) b = s.eqA b from rfl]
      rw [show AnyEncoding.den (.parsed s) = parseFull s.buf from rfl]
      unfold StrEncoding.eqA
      cases hp : parseFull s.buf with
      | none => cases hb : b.den <;> rfl
      | some e =>
          show e.eqA b = _
          rw [eqA_den]
          cases hb : b.den <;> rfl

/-- Equivalence of two representations holds exactly when both denote the
same semantic value. -/
theorem eq_encoding_true_iff (a b : AnyEncoding) :
    a.eq_encoding b = true ↔ ∃ x, a.den = some x ∧ b.den = some x := by
  rw [eq_encoding_den]
  cases ha : a.den with
  | none => simp
  | some x =>
      cases hb : b.den with
      | none => simp
      | some y =>
          simp only [Option.some.injEq]
          constructor
          · intro h
            exact ⟨x, rfl, ((eq_encoding_iff_all.1 x y).mp h).symm⟩
          · rintro ⟨z, hz1, hz2⟩
            cases hz1
            exact (eq_encoding_iff_all.1 x y).mpr hz2.symm

/-- The field comparator succeeds exactly when the sequences have equal
length and the fields at every position are equivalent. -/
theorem eqFields_pointwise : ∀ (fs gs : EncList),
    EncList.eqFields fs gs = true ↔
      (fs.length = gs.length ∧ ∀ i a b, fs.get? i = some a →
        gs.get? i = some b → a.eq_encoding b = true)
  | .nil, .nil => by
      simp [EncList.eqFields, EncList.length, EncList.get?]
  | .nil, .cons b bs => by
      simp [EncList.eqFields, EncList.length]
  | .cons a as, .nil => by
      simp [EncList.eqFields, EncList.length]
  | .cons a as, .cons b bs => by
      have ih := eqFields_pointwise as bs
      simp only [EncList.eqFields, Bool.and_eq_true, ih, EncList.length]
      constructor
      · rintro ⟨hab, hlen, hpt⟩
        refine ⟨by omega, ?_⟩
        intro i x y hx hy
        cases i with
        | zero =>
            cases hx; cases hy; exact hab
        | succ j =>
            exact hpt j x y hx hy
      · rintro ⟨hlen, hpt⟩
        refine ⟨hpt 0 a b rfl rfl, by omega, ?_⟩
        intro j x y hx hy
        exact hpt (j + 1) x y hx hy

/-- A whole-string reduction succeeding means the string is the canonical
rendering of the well-formed encoding it returns. -/
theorem parseFull_sound (s : String) (e : Encoding)
    (h : parseFull s = some e) :
    WFEnc e = true ∧ s.data = e.displayChars := by
  unfold parseFull at h
  split at h
  next e1 heq =>
      cases h
      have h2 := (parse_sound_all (2 * s.data.length + 2)).1 s.data e [] heq
      simpa using h2
  next => cases h

/-- The canonical rendering of any well-formed encoding reduces back to
that encoding. -/
theorem parseFull_display (e : Encoding) (hwf : WFEnc e = true)
    (s : String) (hdata : s.data = e.displayChars) :
    parseFull s = some e := by
  unfold parseFull
  have hfuel : 2 * e.displayChars.length + 1 ≤ 2 * s.data.length + 2 := by
    rw [hdata]
    omega
  have hc := parse_complete_all.1 e hwf [] (2 * s.data.length + 2) hfuel
  rw [List.append_nil] at hc
  rw [hdata] at hc
  rw [hdata, hc]

/-- The field sequence (Char, Int) of the CGPoint test fixture. -/
def cgFields : EncList :=
  .cons (.prim .char) (.cons (.prim .int) .nil)

/-- The static struct encoding `Struct::new("CGPoint", (Char, Int))` of the
test fixture. -/
def cgStruct : Encoding :=
  .struct_ ("CGPoint") cgFields

/-- Two boolean values agreeing as propositions are equal. -/
theorem bool_ext (x y : Bool) (h : x = true ↔ y = true) : x = y := by
  cases x <;> cases y <;> simp_all

/-- Claim C1: a static struct encoding and a string-parsed encoding that
denotes the same type compare equal through `eq_encoding` in both
directions. -/
theorem c1_cross_representation_struct_eq (n : String) (fs : EncList)
    (s : String) (d : Encoding) (hp : parseFull s = some d)
    (hsame : d.eq_encoding (Encoding.struct_ n fs) = true) :
    (AnyEncoding.static (Encoding.struct_ n fs)).eq_encoding
      (AnyEncoding.parsed ⟨s⟩) = true ∧
    (AnyEncoding.parsed ⟨s⟩).eq_encoding
      (AnyEncoding.static (Encoding.struct_ n fs)) = true := by
  have hd : d = Encoding.struct_ n fs := (eq_encoding_iff_all.1 d _).mp hsame
  subst hd
  constructor
  · exact (eq_encoding_true_iff _ _).mpr ⟨_, rfl, hp⟩
  · exact (eq_encoding_true_iff _ _).mpr ⟨_, hp, rfl⟩

/-- Witness for C1 at the CGPoint fixture. -/
theorem c1_witness :
    (AnyEncoding.static cgStruct).eq_encoding
      (AnyEncoding.parsed ⟨("{CGPoint=ci}")⟩) = true ∧
    (AnyEncoding.parsed ⟨("{CGPoint=ci}")⟩).eq_encoding
      (AnyEncoding.static cgStruct) = true :=
  c1_cross_representation_struct_eq ("CGPoint") cgFields ("{CGPoint=ci}")
    cgStruct rfl rfl

/-- Claim C2: two struct encodings are equivalent exactly when their names
are equal, their field counts are equal and their fields are pairwise
equivalent in order; consequently equal names with different field counts,
or with the same fields in a different order, are never equivalent. -/
theorem c2_struct_equivalence (n m : String) (fs gs : EncList) :
    ((Encoding.struct_ n fs).eq_encoding (Encoding.struct_ m gs) = true ↔
      (n = m ∧ fs.length = gs.length ∧ ∀ i a b, fs.get? i = some a →
        gs.get? i = some b → a.eq_encoding b = true)) ∧
    (fs.length ≠ gs.length →
      (Encoding.struct_ n fs).eq_encoding (Encoding.struct_ m gs) = false) ∧
    (fs ≠ gs →
      (Encoding.struct_ n fs).eq_encoding (Encoding.struct_ m gs) = false) := by
  have hmain : (Encoding.struct_ n fs).eq_encoding (Encoding.struct_ m gs)
      = true ↔
      (n = m ∧ fs.length = gs.length ∧ ∀ i a b, fs.get? i = some a →
        gs.get? i = some b → a.eq_encoding b = true) := by
    simp only [Encoding.eq_encoding, Bool.and_eq_true, decide_eq_true_eq,
      eqFields_pointwise, and_assoc]
  refine ⟨hmain, ?_, ?_⟩
  · intro hlen
    cases hv : (Encoding.struct_ n fs).eq_encoding (Encoding.struct_ m gs)
    · rfl
    · exact absurd (hmain.mp hv).2.1 hlen
  · intro hfs
    cases hv : (Encoding.struct_ n fs).eq_encoding (Encoding.struct_ m gs)
    · rfl
    · have h2 := (eq_encoding_iff_all.1 _ _).mp hv
      cases h2
      exact absurd rfl hfs

/-- Witness for C2: the CGPoint fixture equals itself, and dropping a
field or swapping the field order breaks equality. -/
theorem c2_witness :
    cgStruct.eq_encoding cgStruct = true ∧
    cgStruct.eq_encoding
      (Encoding.struct_ ("CGPoint") (.cons (.prim .char) .nil)) = false ∧
    cgStruct.eq_encoding
      (Encoding.struct_ ("CGPoint")
        (.cons (.prim .int) (.cons (.prim .char) .nil))) = false := by
  refine ⟨?_, ?_, ?_⟩
  · exact (c2_struct_equivalence ("CGPoint") ("CGPoint") cgFields
      cgFields).1.mpr ⟨rfl, rfl, by
        intro i a b ha hb
        cases i with
        | zero => cases ha; cases hb; rfl
        | succ j =>
            cases j with
            | zero => cases ha; cases hb; rfl
            | succ k => simp [cgFields, EncList.get?] at ha⟩
  · exact (c2_struct_equivalence ("CGPoint") ("CGPoint") cgFields
      (.cons (.prim .char) .nil)).2.1 (by decide)
  · exact (c2_struct_equivalence ("CGPoint") ("CGPoint") cgFields
      (.cons (.prim .int) (.cons (.prim .char) .nil))).2.2 (by
        intro h
        cases h)

/-- Claim C3: `eq_encoding` is symmetric between any two representations,
reflexive on every representation that denotes a semantic type, and
transitive; together an equivalence on the semantic type space. -/
theorem c3_symmetric_equivalence :
    (∀ a b : AnyEncoding, a.eq_encoding b = b.eq_encoding a) ∧
    (∀ a : AnyEncoding, (a.den).isSome = true → a.eq_encoding a = true) ∧
    (∀ a b c : AnyEncoding, a.eq_encoding b = true →
      b.eq_encoding c = true → a.eq_encoding c = true) := by
  refine ⟨?_, ?_, ?_⟩
  · intro a b
    apply bool_ext
    rw [eq_encoding_true_iff, eq_encoding_true_iff]
    constructor
    · rintro ⟨x, h1, h2⟩
      exact ⟨x, h2, h1⟩
    · rintro ⟨x, h1, h2⟩
      exact ⟨x, h2, h1⟩
  · intro a h
    obtain ⟨x, hx⟩ := Option.isSome_iff_exists.mp h
    exact (eq_encoding_true_iff a a).mpr ⟨x, hx, hx⟩
  · intro a b c h1 h2
    obtain ⟨x, ha, hb⟩ := (eq_encoding_true_iff a b).mp h1
    obtain ⟨y, hb2, hc⟩ := (eq_encoding_true_iff b c).mp h2
    rw [hb] at hb2
    cases hb2
    exact (eq_encoding_true_iff a c).mpr ⟨x, ha, hc⟩

/-- Witness for C3: reflexivity applied to a parsed representation, and
transitivity applied across a static and a parsed CGPoint. -/
theorem c3_witness :
    (AnyEncoding.parsed ⟨("^i")⟩).eq_encoding
      (AnyEncoding.parsed ⟨("^i")⟩) = true ∧
    (AnyEncoding.static cgStruct).eq_encoding
      (AnyEncoding.static cgStruct) = true :=
  ⟨c3_symmetric_equivalence.2.1 (AnyEncoding.parsed ⟨("^i")⟩) rfl,
   c3_symmetric_equivalence.2.2 (AnyEncoding.static cgStruct)
     (AnyEncoding.parsed ⟨("{CGPoint=ci}")⟩) (AnyEncoding.static cgStruct)
     rfl rfl⟩

/-- Claim C7: every constructed encoding of either representation that
satisfies its construction contract compares equal to itself. -/
theorem c7_reflexivity (a : AnyEncoding) (h : (a.den).isSome = true) :
    a.eq_encoding a = true := by
  obtain ⟨x, hx⟩ := Option.isSome_iff_exists.mp h
  exact (eq_encoding_true_iff a a).mpr ⟨x, hx, hx⟩

/-- Witness for C7 at the four shapes of the test: a primitive, a pointer,
a static struct and a parsed struct. -/
theorem c7_witness :
    (AnyEncoding.static (.prim .int)).eq_encoding
      (AnyEncoding.static (.prim .int)) = true ∧
    (AnyEncoding.static (.pointer (.prim .int))).eq_encoding
      (AnyEncoding.static (.pointer (.prim .int))) = true ∧
    (AnyEncoding.static cgStruct).eq_encoding
      (AnyEncoding.static cgStruct) = true ∧
    (AnyEncoding.parsed (StrEncoding.new_unchecked ("{CGPoint=ci}"))).eq_encoding
      (AnyEncoding.parsed (StrEncoding.new_unchecked ("{CGPoint=ci}"))) = true :=
  ⟨c7_reflexivity (AnyEncoding.static (.prim .int)) rfl,
   c7_reflexivity (AnyEncoding.static (.pointer (.prim .int))) rfl,
   c7_reflexivity (AnyEncoding.static cgStruct) rfl,
   c7_reflexivity
     (AnyEncoding.parsed (StrEncoding.new_unchecked ("{CGPoint=ci}"))) rfl⟩

/-- An encoding whose descriptor view is a pointer tag is the pointer
encoding wrapping that pointee. -/
theorem descriptor_pointer_inv (x : Encoding) (a : Encoding)
    (h : x.descriptor = .pointer a) : x = .pointer a := by
  cases x <;> simp_all [Encoding.descriptor]

/-- Claim C4: the validating parse constructor succeeds exactly on strings
that reduce to exactly one well-formed top-level encoding; the CGPoint
string succeeds and is equivalent to the static construction in both
directions, and the unterminated CGPoint string fails. -/
theorem c4_parse_validation :
    (∀ s : String, (StrEncoding.new s).isSome = true ↔
      ∃ e : Encoding, WFEnc e = true ∧ s.data = e.displayChars) ∧
    (∃ t : StrEncoding, StrEncoding.new ("{CGPoint=ci}") = some t ∧
      (AnyEncoding.parsed t).eq_encoding (AnyEncoding.static cgStruct) = true ∧
      (AnyEncoding.static cgStruct).eq_encoding (AnyEncoding.parsed t) = true) ∧
    StrEncoding.new ("\x7bCGPoint=ci") = none := by
  refine ⟨?_, ⟨⟨("{CGPoint=ci}")⟩, rfl, rfl, rfl⟩, rfl⟩
  intro s
  unfold StrEncoding.new
  cases hp : parseFull s with
  | some e =>
      simp only [Option.isSome_some, true_iff]
      obtain ⟨hwf, hdata⟩ := parseFull_sound s e hp
      exact ⟨e, hwf, hdata⟩
  | none =>
      simp only [Option.isSome_none]
      constructor
      · intro h
        cases h
      · rintro ⟨e, hwf, hdata⟩
        rw [parseFull_display e hwf s hdata] at hp
        cases hp

/-- Witness for C4: the iff applied at the CGPoint string, success
concluded from the grammar side. -/
theorem c4_witness : (StrEncoding.new ("{CGPoint=ci}")).isSome = true :=
  (c4_parse_validation.1 ("{CGPoint=ci}")).mpr ⟨cgStruct, rfl, rfl⟩

/-- Claim C5: equivalence of two pointer-capable encodings, of any
representations, is exactly equivalence of their pointees. -/
theorem c5_pointer_eq (p q : AnyEncoding) (a b : Encoding)
    (hp : p.descriptor = some (.pointer a))
    (hq : q.descriptor = some (.pointer b)) :
    p.eq_encoding q = a.eq_encoding b := by
  simp only [AnyEncoding.descriptor, Option.map_eq_some'] at hp hq
  obtain ⟨x, hx, hxa⟩ := hp
  obtain ⟨y, hy, hyb⟩ := hq
  have hxa2 := descriptor_pointer_inv x a hxa
  have hyb2 := descriptor_pointer_inv y b hyb
  subst hxa2 hyb2
  rw [eq_encoding_den, hx, hy]
  rfl

/-- Witness for C5: a static pointer-to-int against the parsed string
form. -/
theorem c5_witness :
    (AnyEncoding.static (.pointer (.prim .int))).eq_encoding
      (AnyEncoding.parsed ⟨("^i")⟩) =
    (Encoding.prim .int).eq_encoding (Encoding.prim .int) :=
  c5_pointer_eq (AnyEncoding.static (.pointer (.prim .int)))
    (AnyEncoding.parsed ⟨("^i")⟩) (.prim .int) (.prim .int) rfl rfl

/-- Claim C6: a primitive equals another encoding exactly when the other's
descriptor is the primitive tag with the identical variant; it never
equals an encoding whose descriptor is a pointer or a struct tag. -/
theorem c6_primitive_eq (p : Primitive) (other : AnyEncoding) :
    (p.eq_encoding other = true ↔
      other.descriptor = some (.primitive p)) ∧
    (∀ a, other.descriptor = some (.pointer a) →
      p.eq_encoding other = false) ∧
    (∀ n fs, other.descriptor = some (.struct_ n fs) →
      p.eq_encoding other = false) := by
  unfold Primitive.eq_encoding
  cases hd : other.descriptor with
  | none =>
      refine ⟨by simp, ?_, ?_⟩
      · intro a h
        cases h
      · intro n fs h
        cases h
  | some d =>
      cases d with
      | primitive q =>
          refine ⟨?_, ?_, ?_⟩
          · simp [eq_comm]
          · intro a h
            cases h
          · intro n fs h
            cases h
      | pointer a =>
          refine ⟨by simp, ?_, ?_⟩
          · intro a2 h
            rfl
          · intro n fs h
            rfl
      | struct_ n fs =>
          refine ⟨by simp, ?_, ?_⟩
          · intro a h
            rfl
          · intro n2 fs2 h
            rfl

/-- Witness for C6: Int equals parsed "i" and is unequal to a pointer and
a struct. -/
theorem c6_witness :
    Primitive.int.eq_encoding (AnyEncoding.parsed ⟨("i")⟩) = true ∧
    Primitive.int.eq_encoding
      (AnyEncoding.static (.pointer (.prim .int))) = false ∧
    Primitive.int.eq_encoding (AnyEncoding.static cgStruct) = false :=
  ⟨(c6_primitive_eq .int (AnyEncoding.parsed ⟨("i")⟩)).1.mpr rfl,
   (c6_primitive_eq .int (AnyEncoding.static (.pointer (.prim .int)))).2.1
     (.prim .int) rfl,
   (c6_primitive_eq .int (AnyEncoding.static cgStruct)).2.2
     ("CGPoint") cgFields rfl⟩

/-- Claim C8: the display of every encoding is the exact canonical textual
form — the code character for a primitive, a caret before the pointee's
display for a pointer, and the braced name-equals-fields form for a
struct; in particular Int renders as "i", Pointer(Int) as "^i" and
Struct("CGPoint", (Char, Int)) as "{CGPoint=ci}". -/
theorem c8_display_canonical :
    (∀ p : Primitive, (Encoding.prim p).display = String.singleton p.code) ∧
    (∀ e : Encoding, (Encoding.pointer e).display = "^" ++ e.display) ∧
    (∀ (n : String) (fs : EncList), (Encoding.struct_ n fs).display =
      "\x7b" ++ n ++ "=" ++ fs.display ++ "\x7d") ∧
    (EncList.display .nil = "" ∧ ∀ (e : Encoding) (es : EncList),
      EncList.display (.cons e es) = e.display ++ es.display) ∧
    (Encoding.prim .int).display = "i" ∧
    (Encoding.pointer (.prim .int)).display = "^i" ∧
    cgStruct.display = "{CGPoint=ci}" := by
  refine ⟨?_, ?_, ?_, ⟨rfl, ?_⟩, rfl, rfl, rfl⟩
  · intro p
    rfl
  · intro e
    rfl
  · intro n fs
    obtain ⟨nd⟩ := n
    show String.mk ('{' :: (nd ++ '=' :: (fs.displayChars ++ ['}']))) = _
    rw [show ("\x7b" : String) ++ ⟨nd⟩ ++ "=" ++ fs.display ++ "\x7d" =
      String.mk ((((['{'] ++ nd) ++ ['=']) ++ fs.displayChars) ++ ['}'])
      from rfl]
    simp
  · intro e es
    rfl

/-- Claim C9: every scan of an unchecked parsed encoding, under any fuel
and over any string — valid or not — consumes only characters of the
string itself: a successful step returns a remainder that is a suffix
reached by consuming exactly the recognised prefix, so the string's length
bounds all scanning. -/
theorem c9_bounded_scan (s : String) (fuel : Nat) (e : Encoding)
    (rest : List Char)
    (h : parseEncF fuel (StrEncoding.new_unchecked s).buf.data =
      some (e, rest)) :
    (StrEncoding.new_unchecked s).buf.data = e.displayChars ++ rest ∧
    rest.length ≤ (StrEncoding.new_unchecked s).buf.data.length := by
  have h2 := (parse_sound_all fuel).1
    (StrEncoding.new_unchecked s).buf.data e rest h
  refine ⟨h2.2, ?_⟩
  rw [h2.2]
  simp

/-- Witness for C9 at the CGPoint string with the fuel the whole-string
reduction uses. -/
theorem c9_witness :
    (StrEncoding.new_unchecked ("{CGPoint=ci}")).buf.data =
      cgStruct.displayChars ++ [] ∧
    List.length ([] : List Char) ≤
      (StrEncoding.new_unchecked ("{CGPoint=ci}")).buf.data.length :=
  c9_bounded_scan ("{CGPoint=ci}") 26 cgStruct [] rfl

/-- Claim C10: the descriptor view obtained from any encoding compares,
through `Descriptor::eq_encoding`, exactly as the encoding it was derived
from compares through its own `eq_encoding`. -/
theorem c10_descriptor_dispatch (a : AnyEncoding) (d : Descriptor)
    (other : AnyEncoding) (h : a.descriptor = some d) :
    d.eq_encoding other = a.eq_encoding other := by
  simp only [AnyEncoding.descriptor, Option.map_eq_some'] at h
  obtain ⟨x, hx, hd⟩ := h
  subst hd
  have h1 : (x.descriptor).eq_encoding other = x.eqA other := by
    cases x <;> rfl
  rw [h1]
  cases a with
  | static e =>
      have he : e = x := by
        have hx2 : some e = some x := hx
        cases hx2
        rfl
      subst he
      rfl
  | parsed s =>
      have h2 : AnyEncoding.eq_encoding (.parsed s) other = x.eqA other := by
        show s.eqA other = x.eqA other
        unfold StrEncoding.eqA
        rw [show parseFull s.buf = some x from hx]
      rw [h2]

/-- Witness for C10: the descriptor of the static CGPoint struct against
the parsed CGPoint string. -/
theorem c10_witness :
    Descriptor.eq_encoding (.struct_ ("CGPoint") cgFields)
      (AnyEncoding.parsed ⟨("{CGPoint=ci}")⟩) =
    (AnyEncoding.static cgStruct).eq_encoding
      (AnyEncoding.parsed ⟨("{CGPoint=ci}")⟩) :=
  c10_descriptor_dispatch (AnyEncoding.static cgStruct)
    (.struct_ ("CGPoint") cgFields)
    (AnyEncoding.parsed ⟨("{CGPoint=ci}")⟩) rfl
